import Mathlib

/-!
Verification of the mcp-stress execution engine, transports and metrics.

Each definition below is a shallow embedding of one function of the
TypeScript source (file and function named in its doc comment).
JS floating-point numbers that hold exact small integers and exact
binary fractions are modelled as rationals; 32-bit integer operations
are modelled on naturals with explicit reduction modulo 2^32.
-/

namespace McpStress

/-! ## Load shapes — src/engine/shapes.ts -/

/-- Shape function type: (t, duration, peak) → target concurrency.
In the source a shape returns a JS number produced by Math.ceil /
Math.max, always an integer at least 1; we use natural numbers. -/
abbrev ShapeFn : Type := ℚ → ℚ → ℕ → ℕ

/-- SHAPES.constant — src/engine/shapes.ts: always peak. -/
def constantShape : ShapeFn := fun _ _ peak => peak

/-- SHAPES.linear-ramp — src/engine/shapes.ts:
Math.max(1, Math.ceil((t / dur) * peak)). -/
def linearRamp : ShapeFn := fun t dur peak =>
  max 1 (⌈(t / dur) * (peak : ℚ)⌉.toNat)

/-- SHAPES.step — src/engine/shapes.ts: five equal steps up to peak. -/
def stepShape : ShapeFn := fun t dur peak =>
  let step : ℤ := min (⌊t / (dur / 5)⌋) 4
  max 1 (⌈((step + 1 : ℚ) / 5) * (peak : ℚ)⌉.toNat)

/-! ## Shaped execution — src/engine/runner.ts, executeShaped -/

/-- Truthiness of `maxRequests` in `maxRequests ? … : …` and
`!maxRequests || …`: a request cap is in force iff `profile.requests`
is present and non-zero. -/
def capActive : Option ℕ → Bool
  | none => false
  | some m => m != 0

/-- The target-concurrency computation of one scheduling tick
(runner.ts, executeShaped):
`maxRequests ? Math.min(profile.concurrency, maxRequests - recorder.total)
             : shape(t, profile.durationSec, profile.concurrency)`. -/
def shapedTarget (shape : ShapeFn) (cap : Option ℕ) (dur : ℚ) (peak : ℕ)
    (total : ℕ) (t : ℚ) : ℕ :=
  if capActive cap then min peak (cap.getD 0 - total) else shape t dur peak

/-- One observed scheduling tick: elapsed time (seconds), the recorder
total when the tick began, and the number of operations launched. -/
structure Tick where
  t : ℚ
  totalBefore : ℕ
  launched : ℕ
  deriving DecidableEq, Repr

/-- The executeShaped loop (runner.ts). `times` abstracts the monotone
clock: the elapsed seconds observed at each loop iteration (the source
reads performance.now for the deadline check and again for `t`; both
reads of one iteration are modelled as a single value). The loop exits
when the deadline is reached, when `total ≥ maxRequests` with a cap in
force, or when the target is ≤ 0; otherwise it launches exactly
`targetConcurrency` operations, and — since both the fulfilment and the
rejection continuation record exactly one outcome — the recorder total
grows by the batch size before the next tick. -/
def shapedRun (shape : ShapeFn) (cap : Option ℕ) (dur : ℚ) (peak : ℕ) :
    List ℚ → ℕ → List Tick
  | [], _ => []
  | t :: rest, total =>
    if dur ≤ t then []
    else if capActive cap ∧ ¬ total < cap.getD 0 then []
    else
      let target := shapedTarget shape cap dur peak total t
      if target = 0 then []
      else ⟨t, total, target⟩ :: shapedRun shape cap dur peak rest (total + target)

/-- The formula the specification claims for a tick's launch count:
min(requests − total, shape(t, duration, peak)). -/
def specTickTarget (shape : ShapeFn) (requests : ℕ) (dur : ℚ) (peak : ℕ)
    (total : ℕ) (t : ℚ) : ℕ :=
  min (requests - total) (shape t dur peak)

/-! ## Seeded PRNG — src/schema.ts (mulberry32) -/

/-- Modulus of JS 32-bit integer coercions, 2^32. -/
def U32M : ℕ := 4294967296

/-- Math.imul reduced to its unsigned 32-bit residue; the signed and
unsigned readings of an int32 agree modulo 2^32, and every consumer of
the product reduces modulo 2^32 again. -/
def imul32 (a b : ℕ) : ℕ := (a * b) % U32M

/-- One mulberry32 output (schema.ts, rng()) as the unsigned 32-bit
numerator u of the returned float u / 2^32. `state` is the value of
`_rngState` just after the `+= 0x6d2b79f5` at the top of rng(); bitwise
operators coerce it modulo 2^32. -/
def mulberryOut (state : ℕ) : ℕ :=
  let t0 := state % U32M
  let t1 := imul32 (Nat.xor t0 (t0 >>> 15)) (t0 ||| 1)
  let t2 := Nat.xor t1 ((t1 + imul32 (Nat.xor t1 (t1 >>> 7)) (t1 ||| 61)) % U32M)
  Nat.xor t2 (t2 >>> 14)

/-- Numerator of the k-th (0-indexed) rng() output after setSeed(seed):
the JS float state holds seed + (k+1)·0x6d2b79f5 exactly (well below
2^53 for the call counts considered), reduced mod 2^32 inside rng(). -/
def rngNumer (seed k : ℕ) : ℕ := mulberryOut (seed + (k + 1) * 0x6d2b79f5)

/-- Math.floor(rng() * n): rng returns u / 2^32 exactly (a binary
fraction with u < 2^32), u·n stays below 2^53 for the small n involved
so the product is exact, and its floor is u·n / 2^32 in ℕ. -/
def floorRngMul (u n : ℕ) : ℕ := u * n / U32M

/-! ## Method interning and the multi-tool operation —
src/metrics/recorder.ts (registerMethod) and src/engine/runner.ts
(buildSingleOp, recordResult, executeShaped) -/

/-- The methodRegistry lookup (a name → id map kept in sync with the
methodNames array; the id of a name is its index). -/
def lookupIdx (name : String) : List String → Option ℕ
  | [] => none
  | n :: rest => if n = name then some 0 else (lookupIdx name rest).map (· + 1)

/-- Recorder.registerMethod: interns a method name. The registry is the
methodNames list, the id an index into it; a known name returns its
existing id, a fresh one is appended. -/
def registerMethod (reg : List String) (name : String) : ℕ × List String :=
  match lookupIdx name reg with
  | some i => (i, reg)
  | none => (reg.length, reg ++ [name])

/-- One entry of the toolOps array in buildSingleOp: the tool's name and
its interned method id for tools/call:<name>. -/
structure ToolOp where
  name : String
  methodId : ℕ
  deriving DecidableEq, Repr

/-- The toolOps construction of buildSingleOp (tools/call with more than
one discovered tool): register tools/call:<name> for each tool in
order, threading the recorder registry. -/
def buildToolOps (reg : List String) : List String → List ToolOp × List String
  | [] => ([], reg)
  | n :: rest =>
    let p := registerMethod reg ("tools/call:" ++ n)
    let q := buildToolOps p.2 rest
    (⟨n, p.1⟩ :: q.1, q.2)

/-- The toolOps value buildSingleOp produces when every tools/call:<name>
registration is fresh: tool i carries name i and method id base + i
(stated for comparison with buildToolOps). -/
def expectedToolOps (base : ℕ) : List String → List ToolOp
  | [] => []
  | n :: rest => ⟨n, base⟩ :: expectedToolOps (base + 1) rest

/-- The Op built by buildSingleOp for a multi-tool tools/call entry:
op.methodId is the FIRST tool's interned id (primaryMethodId); execute
picks toolOps[Math.floor(rng() * toolOps.length)] per call. -/
structure MultiToolOp where
  primary : ℕ
  toolOps : List ToolOp
  deriving DecidableEq, Repr

/-- buildSingleOp (runner.ts, tools/call, tools.length > 1). -/
def buildMultiToolOp (reg : List String) (names : List String) :
    MultiToolOp × List String :=
  let q := buildToolOps reg names
  (⟨(q.1.headD ⟨"", 0⟩).methodId, q.1⟩, q.2)

/-- The tool index chosen by the k-th execute() of a multi-tool op after
setSeed(seed), when the tools' input schemas have no required
properties (generateRandomArgsFromSchema then consumes no PRNG values,
so call k consumes exactly the k-th rng() output). -/
def pickIndexAt (seed n k : ℕ) : ℕ := floorRngMul (rngNumer seed k) n

/-- Outcome of one op.execute() promise as the engine observes it. -/
inductive ExecOutcome where
  | fulfilled (latencyMs : ℚ) (methodIdOfResult : Option ℕ) (isErr : Bool)
  | rejected (latencyMs : ℚ)
  deriving DecidableEq, Repr

/-- What one batch operation records (method id and ok flag): the
fulfilment continuation goes through recordResult — methodId =
r.methodId ?? op.methodId, an error iff r.isError — while the rejection
continuation of executeShaped / executeFindCeiling records an error
under op.methodId. -/
structure Recorded where
  methodId : ℕ
  ok : Bool
  deriving DecidableEq, Repr

/-- recordResult plus the rejection handler (runner.ts). -/
def recordOf (opMethodId : ℕ) : ExecOutcome → Recorded
  | .fulfilled _ mid isErr => ⟨mid.getD opMethodId, !isErr⟩
  | .rejected _ => ⟨opMethodId, false⟩

/-- The k-th execute() of a multi-tool op, when the transport call
settles by fulfilment: the returned record spreads the transport result
and overrides methodId with the picked tool's own id. -/
def multiToolExec (op : MultiToolOp) (seed k : ℕ) (latency : ℚ)
    (isErr : Bool) : ExecOutcome :=
  .fulfilled latency
    (some ((op.toolOps.getD (pickIndexAt seed op.toolOps.length k) ⟨"", 0⟩).methodId))
    isErr

/-! ## Percentile — src/metrics/stats.ts -/

/-- percentile(sorted, p) — src/metrics/stats.ts. Linear interpolation
on a pre-sorted vector; out-of-range reads cannot occur for p ∈ [0,1]
and are given the JS-undefined-free default 0. -/
def percentile (sorted : List ℚ) (p : ℚ) : ℚ :=
  if sorted.length = 0 then 0
  else if sorted.length = 1 then sorted.getD 0 0
  else
    let idx : ℚ := p * ((sorted.length : ℚ) - 1)
    let lo : ℤ := ⌊idx⌋
    let hi : ℤ := ⌈idx⌉
    if lo = hi then sorted.getD lo.toNat 0
    else
      sorted.getD lo.toNat 0 +
        (sorted.getD hi.toNat 0 - sorted.getD lo.toNat 0) * (idx - (lo : ℚ))

/-- The interpolation kernel of percentile as a function of the
fractional index idx = p·(n−1): the branch structure of the source,
with the index abstracted. -/
def interpVal (sorted : List ℚ) (i : ℚ) : ℚ :=
  if (⌊i⌋ : ℤ) = ⌈i⌉ then sorted.getD (⌊i⌋).toNat 0
  else
    sorted.getD (⌊i⌋).toNat 0 +
      (sorted.getD (⌈i⌉).toNat 0 - sorted.getD (⌊i⌋).toNat 0) * (i - ((⌊i⌋ : ℤ) : ℚ))

/-! ## SSE framing — src/transport/sse.ts (SseTransport.readSseStream)
and src/transport/streamable_http.ts
(StreamableHttpTransport.readSseResponse) -/

/-- A JS string, modelled by its character sequence. -/
abbrev JsStr := List Char

/-- The characters JS String.prototype.trim and trimStart strip. -/
def jsWhite (c : Char) : Bool :=
  c == ' ' || c == '\t' || c == '\n' || c == '\r' || c == '\x0b' || c == '\x0c'

/-- JS trimStart. -/
def jsTrimLeft (l : JsStr) : JsStr := l.dropWhile jsWhite

/-- JS trim. -/
def jsTrim (l : JsStr) : JsStr :=
  ((l.dropWhile jsWhite).reverse.dropWhile jsWhite).reverse

/-- JS "…".split("\n"): the LF-separated segments, keeping a (possibly
empty) trailing segment after the last LF. -/
def splitLF : JsStr → List JsStr
  | [] => [[]]
  | c :: rest =>
    let r := splitLF rest
    if c = '\n' then [] :: r
    else (c :: r.headD []) :: r.tail

/-- The lines a chunked SSE reader actually processes: the byte stream
is accumulated into a buffer, split on LF, and the element after the
last LF is held back in the buffer; when the stream ends the held-back
remainder is discarded without processing. Chunk boundaries do not
affect the result, so the whole stream is split at once. -/
def sseLines (stream : JsStr) : List JsStr :=
  (splitLF stream).dropLast

/-- Parser state shared by both SSE readers: the current `event:` value
and the `data:` lines collected for the event in progress. -/
structure SseState where
  eventType : JsStr
  dataLines : List JsStr
  deriving DecidableEq, Repr

/-- One line of SseTransport.readSseStream (sse.ts): an empty line ends
the event (emitting (type, data) with the type defaulting to "message"
and the data lines joined by LF) and always resets eventType; an
`event:` line sets the trimmed event type; a `data:` line appends the
value with leading whitespace stripped; anything else is ignored. -/
def sseLineStep (st : SseState) (line : JsStr) :
    SseState × Option (JsStr × JsStr) :=
  if line = [] then
    if st.dataLines.length > 0 then
      (⟨[], []⟩,
        some (if st.eventType = [] then "message".toList else st.eventType,
          List.intercalate ['\n'] st.dataLines))
    else (⟨[], st.dataLines⟩, none)
  else if "event:".toList.isPrefixOf line then
    ((⟨jsTrim (line.drop 6), st.dataLines⟩ : SseState), none)
  else if "data:".toList.isPrefixOf line then
    ((⟨st.eventType, st.dataLines ++ [jsTrimLeft (line.drop 5)]⟩ : SseState), none)
  else (st, none)

/-- The (event type, data) pairs SseTransport.readSseStream frames from
a list of lines. -/
def sseEventsFrom (st : SseState) : List JsStr → List (JsStr × JsStr)
  | [] => []
  | line :: rest =>
    let p := sseLineStep st line
    match p.2 with
    | some ev => ev :: sseEventsFrom p.1 rest
    | none => sseEventsFrom p.1 rest

/-- One line of StreamableHttpTransport.readSseResponse
(streamable_http.ts); the loop body is textually the same framing as
the sse transport's reader (an empty line emits the event, `event:`
sets the trimmed type, `data:` appends the leading-whitespace-stripped
value, and `id:`, `retry:` and comment lines are ignored). -/
def shttpLineStep (st : SseState) (line : JsStr) :
    SseState × Option (JsStr × JsStr) :=
  if line = [] then
    if st.dataLines.length > 0 then
      (⟨[], []⟩,
        some (if st.eventType = [] then "message".toList else st.eventType,
          List.intercalate ['\n'] st.dataLines))
    else (⟨[], st.dataLines⟩, none)
  else if "event:".toList.isPrefixOf line then
    ((⟨jsTrim (line.drop 6), st.dataLines⟩ : SseState), none)
  else if "data:".toList.isPrefixOf line then
    ((⟨st.eventType, st.dataLines ++ [jsTrimLeft (line.drop 5)]⟩ : SseState), none)
  else (st, none)

/-- The (event type, data) pairs StreamableHttpTransport.readSseResponse
frames from a list of lines. -/
def shttpEventsFrom (st : SseState) : List JsStr → List (JsStr × JsStr)
  | [] => []
  | line :: rest =>
    let p := shttpLineStep st line
    match p.2 with
    | some ev => ev :: shttpEventsFrom p.1 rest
    | none => shttpEventsFrom p.1 rest

/-- A two-line SSE event, LF-terminated. -/
def lfStream : JsStr := "event: message\ndata: \x7b\x7d\n\n".toList

/-- The same SSE event with CRLF line terminators. -/
def crlfStream : JsStr := "event: message\r\ndata: \x7b\x7d\r\n\r\n".toList

/-! ## Writer worker — src/metrics/writer_worker.ts -/

/-- A raw record as the writer worker receives it (t in ms since run
start, interned method id, latency, ok flag, error category/code,
concurrency, phase). -/
structure WRecord where
  t : ℕ
  m : ℕ
  l : ℚ
  ok : Bool
  ec : ℕ
  cc : ℤ
  cn : ℕ
  ph : ℤ
  deriving DecidableEq, Repr

/-- One line of the produced NDJSON file, abstracted to its event kind
(the serialisation to a JSON string is injective per kind). -/
inductive NdLine where
  | metaLine
  | reqLine (r : WRecord)
  | sumLine
  deriving DecidableEq, Repr

/-- The messages of the main-thread → worker protocol
(writer_worker.ts header comment): init{outputPath?, meta?},
method{id,name}, error_msg, batch{records}, complete. -/
inductive WMsg where
  | initMsg (hasOutput : Bool) (hasMeta : Bool)
  | methodMsg (id : ℕ) (name : String)
  | errorMsgMsg (ec : ℕ) (cc : ℤ) (msg : String)
  | batchMsg (records : List WRecord)
  | completeMsg
  deriving DecidableEq, Repr

/-- Writer worker state: whether an output file is open, the file's
lines so far (write buffer and file concatenated — flushing moves bytes
without reordering), the in-memory record sequence, the method-name
table, and whether the worker has shut down after `complete`. -/
structure WState where
  opened : Bool
  file : List NdLine
  records : List WRecord
  methodNames : List (ℕ × String)
  shutdown : Bool
  deriving DecidableEq, Repr

/-- The initial worker state. -/
def w0 : WState := ⟨false, [], [], [], false⟩

/-- handleRecord (writer_worker.ts): push the record; serialise a
request line only when an output file is open. Derived counters
(totalErrors, errorsByCategory) are elided — they do not touch the
file's line sequence. -/
def wHandleRecord (s : WState) (r : WRecord) : WState :=
  { s with
    records := s.records ++ [r]
    file := if s.opened then s.file ++ [NdLine.reqLine r] else s.file }

/-- The worker's onmessage dispatch: handleInit opens the file and
buffers the meta line (only when an output path was given, and a meta
line only when meta was supplied); method messages extend the name
table; error_msg updates the message dictionary (elided); batch runs
handleRecord per record; complete buffers the summary line, flushes and
shuts the worker down, after which no further message is processed. -/
def wStep (s : WState) (m : WMsg) : WState :=
  if s.shutdown then s
  else match m with
  | .initMsg hasOutput hasMeta =>
    if hasOutput then
      { s with opened := true
               file := if hasMeta then s.file ++ [NdLine.metaLine] else s.file }
    else s
  | .methodMsg id name => { s with methodNames := s.methodNames ++ [(id, name)] }
  | .errorMsgMsg _ _ _ => s
  | .batchMsg rs => rs.foldl wHandleRecord s
  | .completeMsg =>
    { s with file := if s.opened then s.file ++ [NdLine.sumLine] else s.file
             shutdown := true }

/-- Run the worker over a message sequence. -/
def wRun (ms : List WMsg) : WState := ms.foldl wStep w0

/-- The records carried by the batch messages of a message list, in
arrival order. -/
def batchRecords : List WMsg → List WRecord
  | [] => []
  | .batchMsg rs :: rest => rs ++ batchRecords rest
  | _ :: rest => batchRecords rest

/-- A data message: everything the recorder sends between init and
complete (method registrations, error messages, record batches). -/
def isDataMsg : WMsg → Bool
  | .methodMsg _ _ => true
  | .errorMsgMsg _ _ _ => true
  | .batchMsg _ => true
  | _ => false

/-! ## Pending-request table — src/client.ts StdioTransport and
src/transport/sse.ts SseTransport, whose request/handleMessage/timer/
close bodies contain verbatim-identical pending-table logic. The
streamable-http transport is different — its request() never registers
a waiter in its pending map — and is modelled separately below. -/

/-- How a waiter was completed. -/
inductive Completion where
  | okDone
  | errDone
  | timedOut
  | closing
  deriving DecidableEq, Repr

/-- The per-transport pending-request bookkeeping shared verbatim by the
stdio and sse transports: a closed flag, the id allocator (`nextId`,
ids handed out in increasing order), the pending map's key set
(insertion order), and the completion history (each resolve/reject of a
waiter appends one entry). -/
structure PendState where
  closedT : Bool
  nextId : ℕ
  pending : List ℕ
  completed : List (ℕ × Completion)
  deriving DecidableEq, Repr

/-- The initial transport state (nextId = 1 in the source; the
numeric start value is irrelevant here). -/
def pend0 : PendState := ⟨false, 1, [], []⟩

/-- The events that touch the pending table. `requestSent` is a
request() registering its waiter (after a closed-transport check that
throws without touching the table); `response id isErr` is the reader
matching a reply (a missing entry is ignored: `if (!entry) return`);
`timeoutFire id` is a request timer firing — timers are cleared
whenever an entry is removed, so a fire on a non-pending id is a
dead timer modelled as a no-op; `closeT` is close(), a no-op when
already closed, otherwise it rejects every pending waiter with the
"Transport closing" error and empties the table. -/
inductive PendEvent where
  | requestSent
  | response (id : ℕ) (isErr : Bool)
  | timeoutFire (id : ℕ)
  | closeT
  deriving DecidableEq, Repr

/-- One pending-table transition (identical logic in the stdio and sse
transports' request/handleMessage/timer/close code). -/
def pendStep (s : PendState) : PendEvent → PendState
  | .requestSent =>
    if s.closedT then s
    else { s with nextId := s.nextId + 1, pending := s.pending ++ [s.nextId] }
  | .response id isErr =>
    if id ∈ s.pending then
      { s with pending := s.pending.erase id
               completed := s.completed ++ [(id, if isErr then .errDone else .okDone)] }
    else s
  | .timeoutFire id =>
    if id ∈ s.pending then
      { s with pending := s.pending.erase id
               completed := s.completed ++ [(id, .timedOut)] }
    else s
  | .closeT =>
    if s.closedT then s
    else { s with closedT := true, pending := []
                  completed := s.completed ++ s.pending.map (fun id => (id, .closing)) }

/-- Run a transport's pending table over an event sequence. -/
def pendRun (es : List PendEvent) : PendState := es.foldl pendStep pend0

/-- The pending-table invariant every transition preserves: pending ids
are distinct, completion-history ids are distinct (no waiter is
completed twice), no id is both pending and completed, every id seen is
below the allocator, and a closed transport has an empty table. -/
def PendInv (s : PendState) : Prop :=
  s.pending.Nodup ∧
  (s.completed.map Prod.fst).Nodup ∧
  (∀ id ∈ s.pending, id ∉ s.completed.map Prod.fst) ∧
  (∀ id ∈ s.pending, id < s.nextId) ∧
  (∀ id ∈ s.completed.map Prod.fst, id < s.nextId) ∧
  (s.closedT = true → s.pending = [])

/-! ## Streamable-http request lifecycle —
src/transport/streamable_http.ts (StreamableHttpTransport). Its
`pending` map is declared and drained by close(), but request() never
inserts into it: each request is a fetch awaited inside request()
itself, with a timer that aborts that fetch's controller. close() sets
the closed flag, drains the (always empty) map and issues the DELETE;
it neither aborts nor completes the in-flight fetches. -/

/-- StreamableHttpTransport bookkeeping: the closed flag, the id
allocator, the pending map's key set (never inserted into), the ids of
requests issued and not yet settled (their awaited fetches), and the
completion history (each return or throw of request() appends one
entry). -/
structure HttpState where
  closedT : Bool
  nextId : ℕ
  pending : List ℕ
  inFlight : List ℕ
  completed : List (ℕ × Completion)
  deriving DecidableEq, Repr

/-- The initial streamable-http transport state (nextId = 1 in the
source). -/
def http0 : HttpState := ⟨false, 1, [], [], []⟩

/-- The events that touch a streamable-http request's lifecycle.
`requestSent` is a request() starting its fetch (after the
closed-transport check that throws without further effect); `settle`
is that fetch resolving into a parsed reply or throwing; `timeoutAbort`
is the request's timer firing controller.abort(), making the awaited
fetch throw (converted to the timeout McpError) — both settle paths
are guarded by the request still being in flight, since request()
returns or throws exactly once; `closeT` is close(), a no-op when
already closed, otherwise it sets the flag and rejects every entry of
the pending map — which request() never populated. -/
inductive HttpEvent where
  | requestSent
  | settle (id : ℕ) (isErr : Bool)
  | timeoutAbort (id : ℕ)
  | closeT
  deriving DecidableEq, Repr

/-- One streamable-http transition (request/readSseResponse/timer/close
code of streamable_http.ts). -/
def httpStep (s : HttpState) : HttpEvent → HttpState
  | .requestSent =>
    if s.closedT then s
    else { s with nextId := s.nextId + 1, inFlight := s.inFlight ++ [s.nextId] }
  | .settle id isErr =>
    if id ∈ s.inFlight then
      { s with inFlight := s.inFlight.erase id
               completed := s.completed
                 ++ [(id, if isErr then .errDone else .okDone)] }
    else s
  | .timeoutAbort id =>
    if id ∈ s.inFlight then
      { s with inFlight := s.inFlight.erase id
               completed := s.completed ++ [(id, .timedOut)] }
    else s
  | .closeT =>
    if s.closedT then s
    else { s with closedT := true, pending := []
                  completed := s.completed
                    ++ s.pending.map (fun id => (id, Completion.closing)) }

/-- Run the streamable-http transport over an event sequence. -/
def httpRun (es : List HttpEvent) : HttpState := es.foldl httpStep http0

/-- The streamable-http invariant every transition preserves: the
pending map stays empty (nothing inserts into it), in-flight ids are
distinct, completion-history ids are distinct (each request settles at
most once), no id is both in flight and completed, and every id seen is
below the allocator. -/
def HttpInv (s : HttpState) : Prop :=
  s.pending = [] ∧
  s.inFlight.Nodup ∧
  (s.completed.map Prod.fst).Nodup ∧
  (∀ id ∈ s.inFlight, id ∉ s.completed.map Prod.fst) ∧
  (∀ id ∈ s.inFlight, id < s.nextId) ∧
  (∀ id ∈ s.completed.map Prod.fst, id < s.nextId)

/-! ## Error classification — src/transport/types.ts (classifyError)
and src/client.ts (StdioTransport.handleMessage) -/

/-- The five wire-error categories. -/
inductive ErrCategory where
  | timeoutCat
  | protocolCat
  | serverCat
  | networkCat
  | clientCat
  deriving DecidableEq, Repr

/-- classifyError's result triple. -/
structure Classified where
  category : ErrCategory
  code : ℤ
  message : String
  deriving DecidableEq, Repr

/-- The JS values classifyError can receive, by constructor class.
A JS Error's `name` is the class default — nothing in this program
reassigns it except McpError's constructor, which sets "McpError". -/
inductive JsError where
  | mcpError (category : ErrCategory) (code : ℤ) (message : String)
  | domException (name : String) (message : String)
  | syntaxError (message : String)
  | typeError (message : String) (codeProp : Option String)
  | plainError (message : String) (codeProp : Option String)
  | nonError (text : String)
  deriving DecidableEq, Repr

/-- The `name` property of the received value ("" for a non-Error). -/
def JsError.name : JsError → String
  | .mcpError _ _ _ => "McpError"
  | .domException nm _ => nm
  | .syntaxError _ => "SyntaxError"
  | .typeError _ _ => "TypeError"
  | .plainError _ _ => "Error"
  | .nonError _ => ""

/-- The Node/Deno error codes classifyError treats as network failures. -/
def networkCodes : List String :=
  ["ECONNREFUSED", "ECONNRESET", "ENOTFOUND", "EPIPE", "EHOSTUNREACH",
   "ENETUNREACH"]

/-- The fetch TypeError message fragments classifyError treats as
network failures. -/
def networkMsgParts : List String :=
  ["error trying to connect", "error sending request", "dns error",
   "tcp connect error", "tls"]

/-- JS String.prototype.includes for a non-empty needle. -/
def strIncludes (hay needle : String) : Bool :=
  (hay.splitOn needle).length > 1

/-- classifyError (src/transport/types.ts), branch for branch: a
McpError passes through; a DOMException named TimeoutError/AbortError
is a timeout, any other DOMException falls through to the generic
Error branch (its legacy numeric `code` never equals the string codes)
and lands on client; a SyntaxError is protocol −32700; an Error with a
listed network code, or a TypeError whose message carries a fetch
network fragment, is network; every other Error and every non-Error is
client. -/
def classifyError : JsError → Classified
  | .mcpError c code msg => ⟨c, code, msg⟩
  | .domException nm msg =>
    if nm = "TimeoutError" ∨ nm = "AbortError" then ⟨.timeoutCat, -1, msg⟩
    else ⟨.clientCat, -1, msg⟩
  | .syntaxError msg => ⟨.protocolCat, -32700, msg⟩
  | .typeError msg codeProp =>
    if (codeProp.getD "") ∈ networkCodes then ⟨.networkCat, -1, msg⟩
    else if networkMsgParts.any (fun p => strIncludes msg p) then
      ⟨.networkCat, -1, msg⟩
    else ⟨.clientCat, -1, msg⟩
  | .plainError msg codeProp =>
    if (codeProp.getD "") ∈ networkCodes then ⟨.networkCat, -1, msg⟩
    else ⟨.clientCat, -1, msg⟩
  | .nonError text => ⟨.clientCat, -1, text⟩

/-- The `error` member of a JSON-RPC reply. -/
structure JsonRpcErrObj where
  code : Option ℤ
  message : Option String
  deriving DecidableEq, Repr

/-- The McpError a transport's handleMessage builds for a reply carrying
an error member: new McpError("server", err.code ?? −1,
err.message ?? "Unknown error", …). -/
def replyErrorToMcp (e : JsonRpcErrObj) : JsError :=
  .mcpError .serverCat (e.code.getD (-1)) (e.message.getD "Unknown error")

/-! ## Find-ceiling controller — src/engine/runner.ts
(executeFindCeiling) -/

/-- What the recorder yields for one phase (phase rps and percentiles,
phase error and request counts). -/
structure PhaseMeasure where
  rps : ℚ
  p50 : ℚ
  p99 : ℚ
  errors : ℕ
  total : ℕ
  deriving DecidableEq, Repr

/-- One recorded phase (PhaseResult in runner.ts). -/
structure PhaseResult where
  concurrency : ℕ
  rps : ℚ
  p50 : ℚ
  p99 : ℚ
  errors : ℕ
  total : ℕ
  deriving DecidableEq, Repr

/-- The concurrency stepping at the bottom of the executeFindCeiling
loop: 1 → 2, +1 below 5, +5 below 20, then +10. -/
def nextConcurrency (c : ℕ) : ℕ :=
  if c = 1 then 2
  else if c < 5 then c + 1
  else if c < 20 then c + 5
  else c + 10

/-- The in-loop stop test (tested only once at least two phases exist):
plateau (rpsGain < threshold and latencyGain > 0.2), throughput
degradation (rps < 0.9·prev), or error saturation
(errors > 0.1·total). -/
def phaseBreak (threshold : ℚ) (prev ph : PhaseResult) : Bool :=
  let rpsGain := (ph.rps - prev.rps) / prev.rps
  let latencyGain := (ph.p50 - prev.p50) / max prev.p50 1
  (decide (rpsGain < threshold) && decide (latencyGain > 1/5)) ||
    decide (ph.rps < prev.rps * (9/10)) ||
    decide ((ph.errors : ℚ) > (ph.total : ℚ) * (1/10))

/-- The executeFindCeiling loop. `measure i c` abstracts the statistics
the recorder produces for the i-th phase run at concurrency c (the
phase's rps, p50, p99, error and request counts). The loop runs while
concurrency ≤ maxConcurrency, records one phase per iteration, breaks
when the stop test fires against the previous phase, and otherwise
steps the concurrency. -/
def findCeilingFrom (measure : ℕ → ℕ → PhaseMeasure) (threshold : ℚ)
    (maxC : ℕ) (c : ℕ) (acc : List PhaseResult) : List PhaseResult :=
  if h : c ≤ maxC then
    let m := measure acc.length c
    let ph : PhaseResult := ⟨c, m.rps, m.p50, m.p99, m.errors, m.total⟩
    if 1 ≤ acc.length ∧ phaseBreak threshold (acc.getLastD ph) ph then
      acc ++ [ph]
    else findCeilingFrom measure threshold maxC (nextConcurrency c) (acc ++ [ph])
  else acc
termination_by maxC + 1 - c
decreasing_by
  simp only [nextConcurrency]
  split_ifs
  all_goals omega

/-- The phase list executeFindCeiling records (concurrency starts
at 1). -/
def findCeilingPhases (measure : ℕ → ℕ → PhaseMeasure) (threshold : ℚ)
    (maxC : ℕ) : List PhaseResult :=
  findCeilingFrom measure threshold maxC 1 []

/-! ## Multi-run aggregate — src/metrics/aggregate.ts -/

/-- The overall LatencyStats block of a run summary
(src/metrics/events.ts), restricted to the aggregated fields. -/
structure LatencyStats where
  minL : ℚ
  maxL : ℚ
  meanL : ℚ
  p50 : ℚ
  p95 : ℚ
  p99 : ℚ
  deriving DecidableEq, Repr

/-- A run's SummaryEvent, restricted to the fields computeAggregate
reads. -/
structure SummaryEvent where
  durationMs : ℚ
  totalRequests : ℕ
  totalErrors : ℕ
  requestsPerSecond : ℚ
  overall : LatencyStats
  deriving DecidableEq, Repr

/-- meanStddev's result. The source stores stddev = Math.sqrt(variance);
the square root of a rational is kept as the variance here and taken
in the theorem statements. -/
structure MeanStddev where
  mean : ℚ
  variance : ℚ
  deriving DecidableEq, Repr

/-- meanStddev (aggregate.ts): mean = Σx/n, variance = Σ(x−mean)²/(n−1)
(the sample variance), with the n = 0 and n = 1 guards of the source. -/
def meanStddev (values : List ℚ) : MeanStddev :=
  if values.length = 0 then ⟨0, 0⟩
  else if values.length = 1 then ⟨values.getD 0 0, 0⟩
  else
    let n : ℚ := values.length
    let mean := values.sum / n
    ⟨mean, (values.map (fun x => (x - mean) ^ 2)).sum / (n - 1)⟩

/-- The overall block of an AggregateResult. -/
structure AggOverall where
  p50 : MeanStddev
  p95 : MeanStddev
  p99 : MeanStddev
  meanA : MeanStddev
  minA : MeanStddev
  maxA : MeanStddev
  deriving DecidableEq, Repr

/-- AggregateResult (aggregate.ts). -/
structure AggregateResult where
  count : ℕ
  durationMs : MeanStddev
  totalRequests : MeanStddev
  requestsPerSecond : MeanStddev
  totalErrors : MeanStddev
  errorRate : MeanStddev
  overall : AggOverall
  deriving DecidableEq, Repr

/-- The per-run error rate computeAggregate maps over the summaries:
totalErrors/totalRequests·100, or 0 for an empty run. -/
def errorRateOf (s : SummaryEvent) : ℚ :=
  if 0 < s.totalRequests then ((s.totalErrors : ℚ) / s.totalRequests) * 100
  else 0

/-- computeAggregate (aggregate.ts); the source throws on an empty
list, modelled as none. -/
def computeAggregate (summaries : List SummaryEvent) :
    Option AggregateResult :=
  if summaries = [] then none
  else some
    ⟨summaries.length,
     meanStddev (summaries.map (·.durationMs)),
     meanStddev (summaries.map (fun s => (s.totalRequests : ℚ))),
     meanStddev (summaries.map (·.requestsPerSecond)),
     meanStddev (summaries.map (fun s => (s.totalErrors : ℚ))),
     meanStddev (summaries.map errorRateOf),
     ⟨meanStddev (summaries.map (·.overall.p50)),
      meanStddev (summaries.map (·.overall.p95)),
      meanStddev (summaries.map (·.overall.p99)),
      meanStddev (summaries.map (·.overall.meanL)),
      meanStddev (summaries.map (·.overall.minL)),
      meanStddev (summaries.map (·.overall.maxL))⟩⟩

/-! ## Theorems -/

/-- C1 (amended): on every scheduling tick of the executeShaped loop,
when a request cap is in force the number of operations launched is
min(peak concurrency, requests − total) — the shape function is not
consulted — and on every tick of a run without a request cap it is
shape(t, duration, peak). -/
theorem shaped_tick_launch_formula (shape : ShapeFn) (cap : Option ℕ)
    (dur : ℚ) (peak : ℕ) (times : List ℚ) (total0 : ℕ) :
    (shapedRun shape cap dur peak times total0).all
      (fun tk => decide (tk.launched =
        if capActive cap then min peak (cap.getD 0 - tk.totalBefore)
        else shape tk.t dur peak)) = true := by
  induction times generalizing total0 with
  | nil => rfl
  | cons t rest ih =>
    simp only [shapedRun]
    split
    · rfl
    split
    · rfl
    split
    · rfl
    rw [List.all_cons, ih]
    simp [shapedTarget]

/-- C1 as stated is false at a concrete input: with a request cap of
100, peak 10, the linear-ramp shape and duration 10 s, the first tick
(t = 0, total = 0) launches 10 operations, while the specification
formula min(requests − total, shape(t, duration, peak)) yields
min(100, 1) = 1. -/
theorem shaped_cap_ignores_shape_cex :
    (shapedRun linearRamp (some 100) 10 10 [0] 0).map Tick.launched = [10] ∧
    specTickTarget linearRamp 100 10 10 0 0 = 1 ∧ (10 : ℕ) ≠ 1 := by
  refine ⟨by decide, by simp [specTickTarget, linearRamp], by decide⟩

/-- C2: the two SSE readers implement the identical framing and so
always produce the same (event type, data) sequence as each other; but
neither normalises CR/LF — the same event stream yields one
("message", "{}") event when LF-terminated and no event at all when
CRLF-terminated (a "\r" line is not recognised as the blank event
delimiter), in both transports. -/
theorem sse_crlf_divergence :
    (∀ (st : SseState) (lines : List JsStr),
        sseEventsFrom st lines = shttpEventsFrom st lines) ∧
    sseEventsFrom ⟨[], []⟩ (sseLines lfStream)
      = [("message".toList, "\x7b\x7d".toList)] ∧
    sseEventsFrom ⟨[], []⟩ (sseLines crlfStream) = [] ∧
    shttpEventsFrom ⟨[], []⟩ (sseLines lfStream)
      = [("message".toList, "\x7b\x7d".toList)] ∧
    shttpEventsFrom ⟨[], []⟩ (sseLines crlfStream) = [] := by
  refine ⟨?_, by decide, by decide, by decide, by decide⟩
  intro st lines
  induction lines generalizing st with
  | nil => rfl
  | cons line rest ih =>
    rw [sseEventsFrom, shttpEventsFrom]
    have hstep : sseLineStep st line = shttpLineStep st line := rfl
    rw [hstep]
    cases (shttpLineStep st line).2 with
    | none => exact ih _
    | some ev => rw [ih]

/-- C3 as stated is false at a concrete input: with the two discovered
tools alpha and beta and seed 42, the 0-th execution of the tools/call
entry picks tool index 1 (Math.floor(rng()·2) = 1), not 0 = 0 mod 2,
and its fulfilled record carries method id 1 (tools/call:beta), not the
round-robin id 0 (tools/call:alpha). -/
theorem multi_tool_round_robin_cex :
    pickIndexAt 42 2 0 = 1 ∧ (0 : ℕ) % 2 = 0 ∧
    (recordOf (buildMultiToolOp [] ["alpha", "beta"]).1.primary
      (multiToolExec (buildMultiToolOp [] ["alpha", "beta"]).1 42 0 5 false)).methodId = 1 ∧
    (1 : ℕ) ≠ 0 := by
  refine ⟨by decide, rfl, ?_, by decide⟩
  decide

/-- A name absent from the registry has no interned id. -/
theorem lookupIdx_eq_none (name : String) (reg : List String)
    (h : name ∉ reg) : lookupIdx name reg = none := by
  induction reg with
  | nil => rfl
  | cons n rest ih =>
    have h1 : ¬ n = name := fun e => h (by rw [← e]; exact List.mem_cons_self n rest)
    have h2 : name ∉ rest := fun m => h (List.mem_cons_of_mem _ m)
    simp [lookupIdx, h1, ih h2]

/-- buildToolOps with all registrations fresh: tool i gets method id
reg.length + i, and the registry grows by the tools/call:<name>
entries in order. -/
theorem buildToolOps_fresh (names : List String) (reg : List String)
    (hfresh : ∀ nm ∈ names.map (fun s => "tools/call:" ++ s), nm ∉ reg)
    (hnd : (names.map (fun s => "tools/call:" ++ s)).Nodup) :
    buildToolOps reg names
      = (expectedToolOps reg.length names,
         reg ++ names.map (fun s => "tools/call:" ++ s)) := by
  induction names generalizing reg with
  | nil => simp [buildToolOps, expectedToolOps]
  | cons n rest ih =>
    have hn : ("tools/call:" ++ n) ∉ reg := hfresh _ (by simp)
    have hreg : registerMethod reg ("tools/call:" ++ n)
        = (reg.length, reg ++ ["tools/call:" ++ n]) := by
      rw [registerMethod, lookupIdx_eq_none _ _ hn]
    have hndh : ("tools/call:" ++ n) ∉ rest.map (fun s => "tools/call:" ++ s) :=
      (List.nodup_cons.mp (by simpa using hnd)).1
    have hndt : (rest.map (fun s => "tools/call:" ++ s)).Nodup :=
      (List.nodup_cons.mp (by simpa using hnd)).2
    have hrest : ∀ nm ∈ rest.map (fun s => "tools/call:" ++ s),
        nm ∉ reg ++ ["tools/call:" ++ n] := by
      intro nm hm
      simp only [List.mem_append, List.mem_singleton]
      push_neg
      exact ⟨hfresh _ (List.mem_cons_of_mem _ hm),
        fun e => hndh (e ▸ hm)⟩
    have := ih (reg ++ ["tools/call:" ++ n]) hrest hndt
    simp only [buildToolOps, hreg, this, List.length_append, List.length_singleton,
      expectedToolOps, List.map_cons]
    simp [List.append_assoc]

/-- expectedToolOps has one entry per tool. -/
theorem expectedToolOps_length (base : ℕ) (names : List String) :
    (expectedToolOps base names).length = names.length := by
  induction names generalizing base with
  | nil => rfl
  | cons n rest ih => simp [expectedToolOps, ih]

/-- All expectedToolOps ids are at least the base. -/
theorem expectedToolOps_ids_lb (base : ℕ) (names : List String) :
    ∀ x ∈ (expectedToolOps base names).map ToolOp.methodId, base ≤ x := by
  induction names generalizing base with
  | nil => intro x hx; cases hx
  | cons n rest ih =>
    intro x hx
    rcases (by simpa [expectedToolOps] using hx : x = base ∨ _) with h | h
    · omega
    · have := ih (base + 1) x (by simpa using h)
      omega

/-- The interned ids of expectedToolOps are pairwise distinct. -/
theorem expectedToolOps_ids_nodup (base : ℕ) (names : List String) :
    ((expectedToolOps base names).map ToolOp.methodId).Nodup := by
  induction names generalizing base with
  | nil => exact List.nodup_nil
  | cons n rest ih =>
    refine List.nodup_cons.mpr ⟨fun hmem => ?_, ih (base + 1)⟩
    have := expectedToolOps_ids_lb (base + 1) rest base hmem
    omega

/-- Indexing expectedToolOps. -/
theorem expectedToolOps_getD (base : ℕ) (names : List String) (i : ℕ)
    (h : i < names.length) :
    (expectedToolOps base names).getD i ⟨"", 0⟩
      = ⟨names.getD i "", base + i⟩ := by
  induction names generalizing base i with
  | nil => cases h
  | cons n rest ih =>
    cases i with
    | zero => simp [expectedToolOps]
    | succ j =>
      have hj : j < rest.length := by simpa using h
      simp only [expectedToolOps, List.getD_cons_succ]
      rw [ih (base + 1) j hj]
      congr 1
      omega

/-- U32M is 2^32. -/
theorem U32M_eq : U32M = 2 ^ 32 := by norm_num [U32M]

/-- An unsigned-32-bit xor stays unsigned 32-bit. -/
theorem xor_lt_u32 {a b : ℕ} (ha : a < U32M) (hb : b < U32M) :
    Nat.xor a b < U32M := by
  rw [U32M_eq] at ha hb ⊢
  exact Nat.xor_lt_two_pow ha hb

/-- Math.imul's residue is below 2^32. -/
theorem imul32_lt (a b : ℕ) : imul32 a b < U32M :=
  Nat.mod_lt _ (by norm_num [U32M])

/-- A right shift never grows a natural. -/
theorem shiftRight_le_self (a k : ℕ) : a >>> k ≤ a := by
  rw [Nat.shiftRight_eq_div_pow]
  exact Nat.div_le_self _ _

/-- Every mulberry32 output numerator is an unsigned 32-bit value. -/
theorem mulberryOut_lt (state : ℕ) : mulberryOut state < U32M := by
  have h32 : 0 < U32M := by norm_num [U32M]
  simp only [mulberryOut]
  apply xor_lt_u32
  · exact xor_lt_u32 (imul32_lt _ _) (Nat.mod_lt _ h32)
  · exact lt_of_le_of_lt (shiftRight_le_self _ _)
      (xor_lt_u32 (imul32_lt _ _) (Nat.mod_lt _ h32))

/-- Math.floor(rng()·n) is always a valid index for a list of length
n > 0. -/
theorem floorRngMul_lt (u n : ℕ) (hu : u < U32M) (hn : 0 < n) :
    floorRngMul u n < n := by
  rw [floorRngMul]
  have h32 : 0 < U32M := by norm_num [U32M]
  rw [Nat.div_lt_iff_lt_mul h32]
  calc u * n = n * u := Nat.mul_comm u n
    _ < n * U32M := (Nat.mul_lt_mul_left hn).mpr hu

/-- The pick of every execution is in range. -/
theorem pickIndexAt_lt (seed n k : ℕ) (hn : 0 < n) :
    pickIndexAt seed n k < n :=
  floorRngMul_lt _ _ (mulberryOut_lt _) hn

/-- C3 (amended): for a tools/call entry bound to n ≥ 2 discovered
tools whose tools/call:<name> registrations are fresh and distinct,
each tool gets its own distinct interned method id (tool i receives
id reg.length + i for tools/call:names[i]); the k-th execution invokes
the tool with index Math.floor(rng_k · n) — the k-th output of the
seeded PRNG, not k mod n — the pick is always in range, and a
fulfilled execution's record carries the picked tool's own method id. -/
theorem multi_tool_random_pick (reg names : List String)
    (h2 : 2 ≤ names.length)
    (hfresh : ∀ nm ∈ names.map (fun s => "tools/call:" ++ s), nm ∉ reg)
    (hnd : (names.map (fun s => "tools/call:" ++ s)).Nodup)
    (seed k : ℕ) (lat : ℚ) (isErr : Bool) :
    (buildMultiToolOp reg names).1.toolOps = expectedToolOps reg.length names ∧
    (buildMultiToolOp reg names).2
      = reg ++ names.map (fun s => "tools/call:" ++ s) ∧
    (((buildMultiToolOp reg names).1.toolOps.map ToolOp.methodId).Nodup) ∧
    pickIndexAt seed names.length k < names.length ∧
    recordOf (buildMultiToolOp reg names).1.primary
        (multiToolExec (buildMultiToolOp reg names).1 seed k lat isErr)
      = ⟨reg.length + pickIndexAt seed names.length k, !isErr⟩ := by
  have hb := buildToolOps_fresh names reg hfresh hnd
  have hops : (buildMultiToolOp reg names).1.toolOps
      = expectedToolOps reg.length names := by
    rw [buildMultiToolOp, hb]
  have hlen : (buildMultiToolOp reg names).1.toolOps.length = names.length := by
    rw [hops, expectedToolOps_length]
  have hpick : pickIndexAt seed names.length k < names.length :=
    pickIndexAt_lt _ _ _ (by omega)
  refine ⟨hops, by rw [buildMultiToolOp, hb], ?_, hpick, ?_⟩
  · rw [hops]; exact expectedToolOps_ids_nodup _ _
  · rw [multiToolExec, hlen, hops, expectedToolOps_getD _ _ _ hpick]
    rfl

/-- C3 witness. -/
theorem multi_tool_random_pick_witness :
    2 ≤ (["alpha", "beta"] : List String).length ∧
    pickIndexAt 42 (["alpha", "beta"] : List String).length 0
      < (["alpha", "beta"] : List String).length :=
  ⟨by decide,
    (multi_tool_random_pick [] ["alpha", "beta"] (by decide) (by decide)
      (by decide) 42 0 5 false).2.2.2.1⟩

/-- C10: for a multi-tool op, an execution whose promise rejects is
recorded as an error under op.methodId — the primary id, the FIRST
discovered tool's interned method id — regardless of which tool the
execution invoked, while a fulfilled execution's record carries the
picked tool's own id. -/
theorem multi_tool_rejected_primary (reg names : List String)
    (h2 : 2 ≤ names.length)
    (hfresh : ∀ nm ∈ names.map (fun s => "tools/call:" ++ s), nm ∉ reg)
    (hnd : (names.map (fun s => "tools/call:" ++ s)).Nodup)
    (seed k : ℕ) (lat lat2 : ℚ) (isErr : Bool) :
    recordOf (buildMultiToolOp reg names).1.primary (.rejected lat)
      = ⟨(buildMultiToolOp reg names).1.primary, false⟩ ∧
    (buildMultiToolOp reg names).1.primary
      = ((buildMultiToolOp reg names).1.toolOps.getD 0 ⟨"", 0⟩).methodId ∧
    (buildMultiToolOp reg names).1.primary = reg.length ∧
    (recordOf (buildMultiToolOp reg names).1.primary
        (multiToolExec (buildMultiToolOp reg names).1 seed k lat2 isErr)).methodId
      = reg.length + pickIndexAt seed names.length k := by
  have hb := buildToolOps_fresh names reg hfresh hnd
  have hops : (buildMultiToolOp reg names).1.toolOps
      = expectedToolOps reg.length names := by
    rw [buildMultiToolOp, hb]
  have hlen : (buildMultiToolOp reg names).1.toolOps.length = names.length := by
    rw [hops, expectedToolOps_length]
  have hpick : pickIndexAt seed names.length k < names.length :=
    pickIndexAt_lt _ _ _ (by omega)
  have hprim : (buildMultiToolOp reg names).1.primary = reg.length := by
    rw [buildMultiToolOp, hb]
    cases names with
    | nil => cases h2
    | cons n rest => rfl
  refine ⟨rfl, ?_, hprim, ?_⟩
  · rw [hprim, hops, expectedToolOps_getD _ _ _ (by omega)]
    simp
  · rw [multiToolExec, hlen, hops, expectedToolOps_getD _ _ _ hpick]
    rfl

/-- C10 witness. -/
theorem multi_tool_rejected_primary_witness :
    2 ≤ (["alpha", "beta"] : List String).length ∧
    (buildMultiToolOp [] ["alpha", "beta"]).1.primary = ([] : List String).length :=
  ⟨by decide,
    (multi_tool_rejected_primary [] ["alpha", "beta"] (by decide) (by decide)
      (by decide) 42 0 5 7 false).2.2.1⟩

/-- C6: any received error value whose name is "TimeoutError" is
classified as category timeout with code −1; a SyntaxError — what JSON
parsing of a received reply throws — is classified protocol with code
−32700; and the server McpError that handleMessage builds for a reply
whose error member is {code: −32603, message: "internal"} classifies
as server with the server's code −32603 carried through. -/
theorem classification_rules (e : JsError) (hname : e.name = "TimeoutError") :
    ((classifyError e).category = ErrCategory.timeoutCat ∧
      (classifyError e).code = -1) ∧
    (∀ msg, classifyError (.syntaxError msg)
        = ⟨ErrCategory.protocolCat, -32700, msg⟩) ∧
    classifyError (replyErrorToMcp ⟨some (-32603), some "internal"⟩)
      = ⟨ErrCategory.serverCat, -32603, "internal"⟩ := by
  refine ⟨?_, fun msg => rfl, rfl⟩
  cases e with
  | mcpError c code msg => simp [JsError.name] at hname
  | domException nm msg =>
    have h : nm = "TimeoutError" := hname
    subst h
    simp [classifyError]
  | syntaxError msg => simp [JsError.name] at hname
  | typeError msg cp => simp [JsError.name] at hname
  | plainError msg cp => simp [JsError.name] at hname
  | nonError t => simp [JsError.name] at hname

/-- C6 witness. -/
theorem classification_rules_witness :
    (JsError.domException "TimeoutError" "m").name = "TimeoutError" ∧
    (classifyError (JsError.domException "TimeoutError" "m")).category
      = ErrCategory.timeoutCat :=
  ⟨rfl, (classification_rules (.domException "TimeoutError" "m") rfl).1.1⟩

/-- Completing one pending waiter preserves the pending-table
invariant. -/
theorem removeComplete_inv (s : PendState) (id : ℕ) (c : Completion)
    (hmem : id ∈ s.pending) (h : PendInv s) :
    PendInv ⟨s.closedT, s.nextId, s.pending.erase id,
      s.completed ++ [(id, c)]⟩ := by
  obtain ⟨hnd, hcd, hdisj, hpb, hcb, hcl⟩ := h
  refine ⟨hnd.erase _, ?_, ?_, ?_, ?_, ?_⟩
  · rw [List.map_append]
    refine List.Nodup.append hcd (by simp) ?_
    intro a ha hb
    simp only [List.map_cons, List.map_nil, List.mem_singleton] at hb
    subst hb
    exact hdisj _ hmem ha
  · intro j hj
    have hj' := List.mem_of_mem_erase hj
    have hne : j ≠ id := ((List.Nodup.mem_erase_iff hnd).mp hj).1
    rw [List.map_append, List.mem_append]
    push_neg
    exact ⟨hdisj _ hj', by simp [hne]⟩
  · intro j hj
    exact hpb _ (List.mem_of_mem_erase hj)
  · intro j hj
    rw [List.map_append, List.mem_append] at hj
    rcases hj with hj | hj
    · exact hcb _ hj
    · simp only [List.map_cons, List.map_nil, List.mem_singleton] at hj
      subst hj
      exact hpb _ hmem
  · intro hcT
    rw [hcl hcT] at hmem
    simp at hmem

/-- Every pending-table transition preserves the invariant; in
particular no waiter is ever completed a second time. -/
theorem pendStep_inv (s : PendState) (e : PendEvent) (h : PendInv s) :
    PendInv (pendStep s e) := by
  obtain ⟨hnd, hcd, hdisj, hpb, hcb, hcl⟩ := h
  cases e with
  | requestSent =>
    rw [pendStep]
    split
    · exact ⟨hnd, hcd, hdisj, hpb, hcb, hcl⟩
    · rename_i hc
      refine ⟨?_, hcd, ?_, ?_, ?_, ?_⟩
      · refine List.Nodup.append hnd (List.nodup_singleton _) ?_
        intro a ha hb
        rw [List.mem_singleton] at hb
        subst hb
        exact absurd (hpb _ ha) (lt_irrefl _)
      · intro id hid
        rw [List.mem_append, List.mem_singleton] at hid
        rcases hid with hid | hid
        · exact hdisj id hid
        · subst hid
          intro hmem
          exact absurd (hcb _ hmem) (lt_irrefl _)
      · intro id hid
        rw [List.mem_append, List.mem_singleton] at hid
        rcases hid with hid | hid
        · exact Nat.lt_succ_of_lt (hpb _ hid)
        · subst hid
          exact Nat.lt_succ_self _
      · intro id hid
        exact Nat.lt_succ_of_lt (hcb _ hid)
      · intro hcT
        exact absurd hcT hc
  | response id isErr =>
    rw [pendStep]
    split
    · rename_i hmem
      exact removeComplete_inv s id _ hmem ⟨hnd, hcd, hdisj, hpb, hcb, hcl⟩
    · exact ⟨hnd, hcd, hdisj, hpb, hcb, hcl⟩
  | timeoutFire id =>
    rw [pendStep]
    split
    · rename_i hmem
      exact removeComplete_inv s id _ hmem ⟨hnd, hcd, hdisj, hpb, hcb, hcl⟩
    · exact ⟨hnd, hcd, hdisj, hpb, hcb, hcl⟩
  | closeT =>
    rw [pendStep]
    split
    · exact ⟨hnd, hcd, hdisj, hpb, hcb, hcl⟩
    · have hmapmap : (s.pending.map (fun id => (id, Completion.closing))).map Prod.fst
          = s.pending := by
        rw [List.map_map]
        exact List.map_id _
      refine ⟨List.nodup_nil, ?_, by simp, by simp, ?_, fun _ => rfl⟩
      · rw [List.map_append, hmapmap]
        refine List.Nodup.append hcd hnd ?_
        intro a ha hb
        exact hdisj _ hb ha
      · intro j hj
        rw [List.map_append, hmapmap, List.mem_append] at hj
        rcases hj with hj | hj
        · exact hcb _ hj
        · exact hpb _ hj

/-- The invariant holds along any event history. -/
theorem foldl_pendStep_inv (es : List PendEvent) (s : PendState)
    (h : PendInv s) : PendInv (es.foldl pendStep s) := by
  induction es generalizing s with
  | nil => exact h
  | cons e rest ih => exact ih _ (pendStep_inv s e h)

/-- The invariant holds of every reachable pending-table state. -/
theorem pendRun_inv (es : List PendEvent) : PendInv (pendRun es) := by
  have h0 : PendInv pend0 :=
    ⟨List.nodup_nil, List.nodup_nil, by simp [pend0], by simp [pend0],
      by simp [pend0], fun _ => rfl⟩
  exact foldl_pendStep_inv es pend0 h0

/-- Close marks the transport closed. -/
theorem pendStep_close_closed (s : PendState) :
    (pendStep s PendEvent.closeT).closedT = true := by
  rw [pendStep]
  split
  · rename_i hc
    exact hc
  · rfl

/-- Settling one in-flight streamable-http request preserves the
invariant. -/
theorem httpRemoveComplete_inv (s : HttpState) (id : ℕ) (c : Completion)
    (hmem : id ∈ s.inFlight) (h : HttpInv s) :
    HttpInv ⟨s.closedT, s.nextId, s.pending, s.inFlight.erase id,
      s.completed ++ [(id, c)]⟩ := by
  obtain ⟨hp, hnd, hcd, hdisj, hpb, hcb⟩ := h
  refine ⟨hp, hnd.erase _, ?_, ?_, ?_, ?_⟩
  · rw [List.map_append]
    refine List.Nodup.append hcd (by simp) ?_
    intro a ha hb
    simp only [List.map_cons, List.map_nil, List.mem_singleton] at hb
    subst hb
    exact hdisj _ hmem ha
  · intro j hj
    have hj' := List.mem_of_mem_erase hj
    have hne : j ≠ id := ((List.Nodup.mem_erase_iff hnd).mp hj).1
    rw [List.map_append, List.mem_append]
    push_neg
    exact ⟨hdisj _ hj', by simp [hne]⟩
  · intro j hj
    exact hpb _ (List.mem_of_mem_erase hj)
  · intro j hj
    rw [List.map_append, List.mem_append] at hj
    rcases hj with hj | hj
    · exact hcb _ hj
    · simp only [List.map_cons, List.map_nil, List.mem_singleton] at hj
      subst hj
      exact hpb _ hmem

/-- Every streamable-http transition preserves the invariant; in
particular the pending map stays empty and no request settles twice. -/
theorem httpStep_inv (s : HttpState) (e : HttpEvent) (h : HttpInv s) :
    HttpInv (httpStep s e) := by
  obtain ⟨hp, hnd, hcd, hdisj, hpb, hcb⟩ := h
  cases e with
  | requestSent =>
    rw [httpStep]
    split
    · exact ⟨hp, hnd, hcd, hdisj, hpb, hcb⟩
    · refine ⟨hp, ?_, hcd, ?_, ?_, ?_⟩
      · refine List.Nodup.append hnd (List.nodup_singleton _) ?_
        intro a ha hb
        rw [List.mem_singleton] at hb
        subst hb
        exact absurd (hpb _ ha) (lt_irrefl _)
      · intro id hid
        rw [List.mem_append, List.mem_singleton] at hid
        rcases hid with hid | hid
        · exact hdisj id hid
        · subst hid
          intro hmem
          exact absurd (hcb _ hmem) (lt_irrefl _)
      · intro id hid
        rw [List.mem_append, List.mem_singleton] at hid
        rcases hid with hid | hid
        · exact Nat.lt_succ_of_lt (hpb _ hid)
        · subst hid
          exact Nat.lt_succ_self _
      · intro id hid
        exact Nat.lt_succ_of_lt (hcb _ hid)
  | settle id isErr =>
    rw [httpStep]
    split
    · rename_i hmem
      exact httpRemoveComplete_inv s id _ hmem ⟨hp, hnd, hcd, hdisj, hpb, hcb⟩
    · exact ⟨hp, hnd, hcd, hdisj, hpb, hcb⟩
  | timeoutAbort id =>
    rw [httpStep]
    split
    · rename_i hmem
      exact httpRemoveComplete_inv s id _ hmem ⟨hp, hnd, hcd, hdisj, hpb, hcb⟩
    · exact ⟨hp, hnd, hcd, hdisj, hpb, hcb⟩
  | closeT =>
    rw [httpStep]
    split
    · exact ⟨hp, hnd, hcd, hdisj, hpb, hcb⟩
    · refine ⟨rfl, hnd, ?_, ?_, hpb, ?_⟩
      · rw [hp]
        simpa using hcd
      · intro id hid
        rw [hp]
        simpa using hdisj id hid
      · intro id hid
        rw [hp] at hid
        simp only [List.map_nil, List.append_nil] at hid
        exact hcb _ hid

/-- The streamable-http invariant holds along any event history. -/
theorem foldl_httpStep_inv (es : List HttpEvent) (s : HttpState)
    (h : HttpInv s) : HttpInv (es.foldl httpStep s) := by
  induction es generalizing s with
  | nil => exact h
  | cons e rest ih => exact ih _ (httpStep_inv s e h)

/-- The invariant holds of every reachable streamable-http state. -/
theorem httpRun_inv (es : List HttpEvent) : HttpInv (httpRun es) := by
  have h0 : HttpInv http0 :=
    ⟨rfl, List.nodup_nil, List.nodup_nil, by simp [http0], by simp [http0],
      by simp [http0]⟩
  exact foldl_httpStep_inv es http0 h0

/-- C5 as stated is false for the streamable-http variant at a concrete
input: request() never inserts into that transport's pending map, so
after one request is issued and close() runs, the request is still in
flight and the completion history is empty — in particular it has not
been rejected with a closing error (close() only drains the map, which
was never populated, and does not abort the awaited fetch). -/
theorem http_close_ignores_inflight_cex :
    (httpRun [HttpEvent.requestSent, HttpEvent.closeT]).inFlight = [1] ∧
    (httpRun [HttpEvent.requestSent, HttpEvent.closeT]).closedT = true ∧
    (httpRun [HttpEvent.requestSent, HttpEvent.closeT]).completed = [] ∧
    ¬ (1, Completion.closing)
        ∈ (httpRun [HttpEvent.requestSent, HttpEvent.closeT]).completed :=
  ⟨by decide, by decide, by decide, by decide⟩

/-- C5 (amended): for the stdio and sse transports — whose close()
bodies share the pending-table logic verbatim — after close() the
pending table is empty, every request pending at close time has been
rejected with the closing error, and no waiter is ever completed
(resolved or rejected) more than once. The streamable-http transport
has no such waiter lifecycle: its request() never registers a waiter,
so its pending map is empty throughout — close() trivially leaves it
empty — while close() leaves the in-flight requests and the completion
history untouched (no in-flight request is rejected with a closing
error); each of its requests still settles at most once. -/
theorem close_semantics_by_transport (es : List PendEvent)
    (hs : List HttpEvent) :
    (pendStep (pendRun es) PendEvent.closeT).pending = [] ∧
    ((pendRun es).pending.all (fun id =>
      decide ((id, Completion.closing)
        ∈ (pendStep (pendRun es) PendEvent.closeT).completed))) = true ∧
    ((pendStep (pendRun es) PendEvent.closeT).completed.map Prod.fst).Nodup ∧
    (httpRun hs).pending = [] ∧
    (httpStep (httpRun hs) HttpEvent.closeT).pending = [] ∧
    (httpStep (httpRun hs) HttpEvent.closeT).inFlight
      = (httpRun hs).inFlight ∧
    (httpStep (httpRun hs) HttpEvent.closeT).completed
      = (httpRun hs).completed ∧
    ((httpRun hs).completed.map Prod.fst).Nodup := by
  have hinv := pendRun_inv es
  have hinv' := pendStep_inv (pendRun es) PendEvent.closeT hinv
  have hhttp := httpRun_inv hs
  refine ⟨hinv'.2.2.2.2.2 (pendStep_close_closed _), ?_, hinv'.2.1, hhttp.1,
    ?_, ?_, ?_, hhttp.2.2.1⟩
  · rw [List.all_eq_true]
    intro id hid
    rw [decide_eq_true_eq]
    rw [pendStep]
    split
    · rename_i hc
      rw [hinv.2.2.2.2.2 hc] at hid
      simp at hid
    · exact List.mem_append_right _
        (List.mem_map_of_mem (fun id => (id, Completion.closing)) hid)
  · rw [httpStep]
    split
    · exact hhttp.1
    · rfl
  · rw [httpStep]
    split
    · rfl
    · rfl
  · rw [httpStep]
    split
    · rfl
    · rw [hhttp.1]
      simp

/-- Folding handleRecord over a batch appends the records and, with an
open output file, one request line per record, in order. -/
theorem foldl_wHandleRecord (rs : List WRecord) (s : WState)
    (ho : s.opened = true) :
    rs.foldl wHandleRecord s
      = ⟨s.opened, s.file ++ rs.map NdLine.reqLine, s.records ++ rs,
         s.methodNames, s.shutdown⟩ := by
  induction rs generalizing s with
  | nil => simp
  | cons r rest ih =>
    rw [List.foldl_cons]
    have hs : wHandleRecord s r
        = ⟨s.opened, s.file ++ [NdLine.reqLine r], s.records ++ [r],
           s.methodNames, s.shutdown⟩ := by
      rw [wHandleRecord]
      simp [ho]
    rw [hs, ih _ (by simpa using ho)]
    simp

/-- Folding the worker over data messages only: the file grows by
exactly the batched records' request lines, in arrival order, and the
open/shutdown flags are unchanged. -/
theorem foldl_wStep_data (body : List WMsg) (s : WState)
    (hdata : body.all isDataMsg = true) (ho : s.opened = true)
    (hsd : s.shutdown = false) :
    ((body.foldl wStep s).file
        = s.file ++ (batchRecords body).map NdLine.reqLine) ∧
    (body.foldl wStep s).opened = true ∧
    (body.foldl wStep s).shutdown = false := by
  induction body generalizing s with
  | nil => simp [batchRecords, ho, hsd]
  | cons m rest ih =>
    rw [List.all_cons, Bool.and_eq_true] at hdata
    rw [List.foldl_cons]
    cases m with
    | initMsg a b => cases hdata.1
    | completeMsg => cases hdata.1
    | methodMsg id name =>
      have hstep : wStep s (WMsg.methodMsg id name)
          = ⟨s.opened, s.file, s.records, s.methodNames ++ [(id, name)],
             s.shutdown⟩ := by
        rw [wStep, if_neg (by rw [hsd]; exact Bool.false_ne_true)]
      rw [hstep]
      have := ih (⟨s.opened, s.file, s.records, s.methodNames ++ [(id, name)],
        s.shutdown⟩ : WState) hdata.2 ho hsd
      simpa [batchRecords] using this
    | errorMsgMsg a b c =>
      have hstep : wStep s (WMsg.errorMsgMsg a b c) = s := by
        rw [wStep, if_neg (by rw [hsd]; exact Bool.false_ne_true)]
      rw [hstep]
      have := ih _ hdata.2 ho hsd
      simpa [batchRecords] using this
    | batchMsg rs =>
      have hstep : wStep s (WMsg.batchMsg rs) = rs.foldl wHandleRecord s := by
        rw [wStep, if_neg (by rw [hsd]; exact Bool.false_ne_true)]
      rw [hstep, foldl_wHandleRecord rs s ho]
      have := ih (⟨s.opened, s.file ++ rs.map NdLine.reqLine, s.records ++ rs,
        s.methodNames, s.shutdown⟩ : WState) hdata.2 (by simpa using ho)
        (by simpa using hsd)
      rw [this.1]
      refine ⟨?_, this.2.1, this.2.2⟩
      simp [batchRecords, List.append_assoc]

/-- Request lines alone survive the timestamp projection. -/
theorem filterMap_reqLine_t (rs : List WRecord) :
    (rs.map NdLine.reqLine).filterMap (fun l => match l with
      | NdLine.reqLine r => some r.t
      | _ => none) = rs.map WRecord.t := by
  induction rs with
  | nil => rfl
  | cons r rest ih => simp [List.filterMap_cons, ih]

/-- C4: a run's writer receives init (with an output path and meta),
then the recorder's data messages, then — iff the run completed —
complete. The produced file is exactly one meta line first, the batched
request events in arrival order, and exactly one summary line last iff
the run completed; when the recorder's timestamps are non-decreasing
(one monotone clock produces them in record order), so are the t fields
across the file's request events. -/
theorem ndjson_file_shape (body : List WMsg) (completed : Bool)
    (hbody : body.all isDataMsg = true)
    (hmono : List.Chain' (· ≤ ·) ((batchRecords body).map WRecord.t)) :
    (wRun (WMsg.initMsg true true :: body
        ++ (if completed then [WMsg.completeMsg] else []))).file
      = NdLine.metaLine :: ((batchRecords body).map NdLine.reqLine
          ++ (if completed then [NdLine.sumLine] else [])) ∧
    (wRun (WMsg.initMsg true true :: body
        ++ (if completed then [WMsg.completeMsg] else []))).file.head?
      = some NdLine.metaLine ∧
    (wRun (WMsg.initMsg true true :: body
        ++ (if completed then [WMsg.completeMsg] else []))).file.count
        NdLine.metaLine = 1 ∧
    (wRun (WMsg.initMsg true true :: body
        ++ (if completed then [WMsg.completeMsg] else []))).file.count
        NdLine.sumLine = (if completed then 1 else 0) ∧
    (completed = true →
      (wRun (WMsg.initMsg true true :: body
          ++ (if completed then [WMsg.completeMsg] else []))).file.getLast?
        = some NdLine.sumLine) ∧
    List.Chain' (· ≤ ·)
      ((wRun (WMsg.initMsg true true :: body
          ++ (if completed then [WMsg.completeMsg] else []))).file.filterMap
        (fun l => match l with
          | NdLine.reqLine r => some r.t
          | _ => none)) := by
  have hinit : wStep w0 (WMsg.initMsg true true)
      = ⟨true, [NdLine.metaLine], [], [], false⟩ := by rfl
  have hfile : (wRun (WMsg.initMsg true true :: body
      ++ (if completed then [WMsg.completeMsg] else []))).file
      = NdLine.metaLine :: ((batchRecords body).map NdLine.reqLine
          ++ (if completed then [NdLine.sumLine] else [])) := by
    rw [wRun]
    simp only [List.foldl_cons, List.foldl_append, hinit]
    have hb := foldl_wStep_data body ⟨true, [NdLine.metaLine], [], [], false⟩
      hbody rfl rfl
    cases completed with
    | false =>
      simp only [Bool.false_eq_true, if_false, List.foldl_nil]
      rw [hb.1]
      simp
    | true =>
      simp only [if_pos trivial, List.foldl_cons, List.foldl_nil]
      rw [wStep.eq_def, if_neg (by rw [hb.2.2]; exact Bool.false_ne_true)]
      simp only [hb.2.1, if_pos rfl, hb.1]
      simp
  have hnotmeta : ∀ x ∈ (batchRecords body).map NdLine.reqLine
      ++ (if completed then [NdLine.sumLine] else []),
      x ≠ NdLine.metaLine := by
    intro x hx
    rw [List.mem_append] at hx
    rcases hx with hx | hx
    · obtain ⟨r, _, hr⟩ := List.mem_map.mp hx
      rw [← hr]
      intro hcon
      cases hcon
    · cases completed with
      | false => simp at hx
      | true =>
        rw [if_pos rfl, List.mem_singleton] at hx
        subst hx
        intro hcon
        cases hcon
  refine ⟨hfile, by rw [hfile]; rfl, ?_, ?_, ?_, ?_⟩
  · rw [hfile]
    have hz : ((batchRecords body).map NdLine.reqLine
        ++ (if completed then [NdLine.sumLine] else [])).count
        NdLine.metaLine = 0 :=
      List.count_eq_zero.mpr (fun hmem => hnotmeta _ hmem rfl)
    rw [List.count_cons_self, hz]
  · rw [hfile]
    have hz : ((batchRecords body).map NdLine.reqLine).count NdLine.sumLine
        = 0 :=
      List.count_eq_zero.mpr (fun hmem => by
        obtain ⟨r, _, hr⟩ := List.mem_map.mp hmem
        cases hr)
    rw [List.count_cons_of_ne (by intro hcon; cases hcon),
      List.count_append, hz, Nat.zero_add]
    cases completed with
    | false => rfl
    | true => rfl
  · intro hc
    subst hc
    rw [hfile, if_pos rfl]
    rw [show NdLine.metaLine :: ((batchRecords body).map NdLine.reqLine
        ++ [NdLine.sumLine])
      = (NdLine.metaLine :: (batchRecords body).map NdLine.reqLine)
        ++ [NdLine.sumLine] by simp]
    exact List.getLast?_concat _
  · rw [hfile]
    have hfm : (NdLine.metaLine :: ((batchRecords body).map NdLine.reqLine
        ++ (if completed then [NdLine.sumLine] else []))).filterMap
        (fun l => match l with
          | NdLine.reqLine r => some r.t
          | _ => none)
        = (batchRecords body).map WRecord.t := by
      rw [List.filterMap_cons]
      simp only [List.filterMap_append]
      rw [filterMap_reqLine_t]
      have h2 : (if completed then [NdLine.sumLine] else []).filterMap
          (fun l => match l with
            | NdLine.reqLine r => some r.t
            | _ => none) = [] := by
        cases completed with
        | false => rfl
        | true => rfl
      rw [h2, List.append_nil]
    rw [hfm]
    exact hmono

/-- C4 witness. -/
theorem ndjson_file_shape_witness :
    ([WMsg.batchMsg [⟨0, 0, 1, true, 0, 0, 1, -1⟩,
        ⟨5, 0, 2, true, 0, 0, 1, -1⟩]].all isDataMsg = true) ∧
    (wRun (WMsg.initMsg true true :: [WMsg.batchMsg
        [⟨0, 0, 1, true, 0, 0, 1, -1⟩, ⟨5, 0, 2, true, 0, 0, 1, -1⟩]]
        ++ (if true then [WMsg.completeMsg] else []))).file
      = NdLine.metaLine :: ((batchRecords [WMsg.batchMsg
          [⟨0, 0, 1, true, 0, 0, 1, -1⟩, ⟨5, 0, 2, true, 0, 0, 1, -1⟩]]).map
            NdLine.reqLine
          ++ (if true then [NdLine.sumLine] else [])) :=
  ⟨rfl,
    (ndjson_file_shape [WMsg.batchMsg [⟨0, 0, 1, true, 0, 0, 1, -1⟩,
        ⟨5, 0, 2, true, 0, 0, 1, -1⟩]] true rfl
      (by simp [batchRecords])).1⟩

/-- Concurrency strictly grows at every step. -/
theorem lt_nextConcurrency (c : ℕ) : c < nextConcurrency c := by
  rw [nextConcurrency]
  split_ifs
  all_goals omega

/-- The phase list of findCeilingFrom extends the accumulator with the
iterated concurrency ladder starting at c, every rung within maxC. -/
theorem findCeilingFrom_concs (measure : ℕ → ℕ → PhaseMeasure)
    (threshold : ℚ) (maxC : ℕ) (c : ℕ) (acc : List PhaseResult) :
    ∃ k, ((findCeilingFrom measure threshold maxC c acc).map
        PhaseResult.concurrency
      = acc.map PhaseResult.concurrency
        ++ (List.range k).map (fun i => nextConcurrency^[i] c)) ∧
      (∀ i, i < k → nextConcurrency^[i] c ≤ maxC) := by
  rw [findCeilingFrom]
  dsimp only
  split
  · rename_i h
    split
    · refine ⟨1, ?_, ?_⟩
      · simp
      · intro i hi
        interval_cases i
        simpa using h
    · obtain ⟨k, hk1, hk2⟩ := findCeilingFrom_concs measure threshold maxC
        (nextConcurrency c)
        (acc ++ [⟨c, (measure acc.length c).rps, (measure acc.length c).p50,
          (measure acc.length c).p99, (measure acc.length c).errors,
          (measure acc.length c).total⟩])
      refine ⟨k + 1, ?_, ?_⟩
      · have hiter : (List.range (k + 1)).map (fun i => nextConcurrency^[i] c)
            = c :: (List.range k).map
                (fun i => nextConcurrency^[i] (nextConcurrency c)) := by
          rw [List.range_succ_eq_map, List.map_cons, List.map_map]
          refine congrArg₂ List.cons (by simp) ?_
          have hcomp : ((fun i => nextConcurrency^[i] c) ∘ Nat.succ)
              = fun i => nextConcurrency^[i] (nextConcurrency c) := by
            funext i
            exact Function.iterate_succ_apply nextConcurrency i c
          rw [hcomp]
        rw [hk1, hiter]
        simp [List.append_assoc]
      · intro i hi
        cases i with
        | zero => simpa using h
        | succ j =>
          rw [Function.iterate_succ_apply]
          exact hk2 j (by omega)
  · exact ⟨0, by simp, by omega⟩
termination_by maxC + 1 - c
decreasing_by
  simp only [nextConcurrency]
  split_ifs
  all_goals omega

/-- C8: in every find-ceiling run the recorded phases carry the
iterated concurrency ladder 1, 2, 3, 4, 5, 10, 15, 20, 30, 40, 50, …
(+1 up to 5, +5 up to 20, then +10) from the start, hence strictly
increasing concurrency, every phase within maxConcurrency, for any
per-phase measurements and thresholds (the stop rules only cut the
ladder short). -/
theorem find_ceiling_concurrency_ladder (measure : ℕ → ℕ → PhaseMeasure)
    (threshold : ℚ) (maxC : ℕ) :
    ((findCeilingPhases measure threshold maxC).map PhaseResult.concurrency
      = (List.range
          (findCeilingPhases measure threshold maxC).length).map
          (fun i => nextConcurrency^[i] 1)) ∧
    List.Chain' (· < ·)
      ((findCeilingPhases measure threshold maxC).map
        PhaseResult.concurrency) ∧
    ((findCeilingPhases measure threshold maxC).all
      (fun ph => decide (ph.concurrency ≤ maxC))) = true ∧
    (List.range 11).map (fun i => nextConcurrency^[i] 1)
      = [1, 2, 3, 4, 5, 10, 15, 20, 30, 40, 50] := by
  obtain ⟨k, hk1, hk2⟩ := findCeilingFrom_concs measure threshold maxC 1 []
  rw [findCeilingPhases] at *
  have hlen : (findCeilingFrom measure threshold maxC 1 []).length = k := by
    have := congrArg List.length hk1
    simpa using this
  have hsm : StrictMono (fun i => nextConcurrency^[i] 1) := by
    apply strictMono_nat_of_lt_succ
    intro n
    rw [Function.iterate_succ_apply']
    exact lt_nextConcurrency _
  refine ⟨by rw [hlen]; simpa using hk1, ?_, ?_, by decide⟩
  · rw [show (findCeilingFrom measure threshold maxC 1 []).map
        PhaseResult.concurrency
      = (List.range k).map (fun i => nextConcurrency^[i] 1) by
        simpa using hk1]
    rw [List.chain'_map]
    cases k with
    | zero => simp
    | succ m =>
      rw [List.chain'_range_succ]
      intro i hi
      exact hsm (Nat.lt_succ_self i)
  · rw [List.all_eq_true]
    intro ph hph
    rw [decide_eq_true_eq]
    have hmem : ph.concurrency ∈ (findCeilingFrom measure threshold maxC 1
        []).map PhaseResult.concurrency := List.mem_map_of_mem _ hph
    rw [hk1] at hmem
    simp only [List.map_nil, List.nil_append, List.mem_map,
      List.mem_range] at hmem
    obtain ⟨i, hik, hie⟩ := hmem
    rw [← hie]
    exact hk2 i hik

/-- C9: meanStddev is the arithmetic mean together with the sample
variance (the (n−1) denominator; the source stores its square root);
computeAggregate applies it to every aggregated field of a non-empty
summary list; and for three runs with overall.p99 = 100, 200, 150 the
aggregate p99 has mean 150 and variance 2500, whose square root — the
reported stddev — is 50. -/
theorem aggregate_mean_sample_stddev (s1 s2 s3 : SummaryEvent)
    (h1 : s1.overall.p99 = 100) (h2 : s2.overall.p99 = 200)
    (h3 : s3.overall.p99 = 150) :
    (∀ xs : List ℚ, xs ≠ [] →
      (meanStddev xs).mean = xs.sum / xs.length ∧
      (meanStddev xs).variance
        = (xs.map (fun x => (x - xs.sum / xs.length) ^ 2)).sum
            / ((xs.length : ℚ) - 1)) ∧
    (∀ ss : List SummaryEvent, ss ≠ [] →
      computeAggregate ss = some
        ⟨ss.length,
         meanStddev (ss.map (·.durationMs)),
         meanStddev (ss.map (fun s => (s.totalRequests : ℚ))),
         meanStddev (ss.map (·.requestsPerSecond)),
         meanStddev (ss.map (fun s => (s.totalErrors : ℚ))),
         meanStddev (ss.map errorRateOf),
         ⟨meanStddev (ss.map (·.overall.p50)),
          meanStddev (ss.map (·.overall.p95)),
          meanStddev (ss.map (·.overall.p99)),
          meanStddev (ss.map (·.overall.meanL)),
          meanStddev (ss.map (·.overall.minL)),
          meanStddev (ss.map (·.overall.maxL))⟩⟩) ∧
    (computeAggregate [s1, s2, s3]).map (fun agg => agg.overall.p99)
      = some ⟨150, 2500⟩ ∧
    Real.sqrt (((⟨150, 2500⟩ : MeanStddev).variance : ℚ) : ℝ) = 50 := by
  have hms : meanStddev [(100 : ℚ), 200, 150] = ⟨150, 2500⟩ := by
    rw [meanStddev]
    norm_num
  refine ⟨?_, ?_, ?_, ?_⟩
  · intro xs hne
    match xs, hne with
    | [x], _ =>
      refine ⟨?_, ?_⟩
      · rw [meanStddev]
        norm_num
      · rw [meanStddev]
        norm_num
    | x :: y :: rest, _ =>
      have hlen0 : (x :: y :: rest : List ℚ).length ≠ 0 := by simp
      have hlen1 : (x :: y :: rest : List ℚ).length ≠ 1 := by simp
      rw [meanStddev, if_neg hlen0, if_neg hlen1]
      exact ⟨rfl, rfl⟩
  · intro ss hne
    rw [computeAggregate, if_neg hne]
  · rw [computeAggregate, if_neg (by simp)]
    show some (meanStddev [s1.overall.p99, s2.overall.p99, s3.overall.p99])
      = some (⟨150, 2500⟩ : MeanStddev)
    rw [h1, h2, h3, hms]
  · show Real.sqrt (((2500 : ℚ) : ℝ)) = 50
    rw [show (((2500 : ℚ) : ℝ)) = (50 : ℝ) ^ 2 by norm_num]
    exact Real.sqrt_sq (by norm_num)

/-- C9 witness. -/
theorem aggregate_mean_sample_stddev_witness :
    ((⟨1000, 10, 0, 10, ⟨1, 9, 5, 5, 8, 100⟩⟩ : SummaryEvent).overall.p99
      = 100) ∧
    (computeAggregate
        [⟨1000, 10, 0, 10, ⟨1, 9, 5, 5, 8, 100⟩⟩,
         ⟨1000, 10, 0, 10, ⟨1, 9, 5, 5, 8, 200⟩⟩,
         ⟨1000, 10, 0, 10, ⟨1, 9, 5, 5, 8, 150⟩⟩]).map
      (fun agg => agg.overall.p99) = some ⟨150, 2500⟩ :=
  ⟨rfl,
    (aggregate_mean_sample_stddev
      ⟨1000, 10, 0, 10, ⟨1, 9, 5, 5, 8, 100⟩⟩
      ⟨1000, 10, 0, 10, ⟨1, 9, 5, 5, 8, 200⟩⟩
      ⟨1000, 10, 0, 10, ⟨1, 9, 5, 5, 8, 150⟩⟩ rfl rfl rfl).2.2.1⟩

/-- Reading a sorted vector at increasing indices is monotone. -/
theorem sorted_getD_mono (xs : List ℚ) (hs : xs.Sorted (· ≤ ·)) {i j : ℕ}
    (hij : i ≤ j) (hj : j < xs.length) : xs.getD i 0 ≤ xs.getD j 0 := by
  have hi : i < xs.length := Nat.lt_of_le_of_lt hij hj
  rw [List.getD_eq_getElem?_getD, List.getD_eq_getElem?_getD,
    List.getElem?_eq_getElem hi, List.getElem?_eq_getElem hj,
    Option.getD_some, Option.getD_some]
  exact hs.rel_get_of_le (show (⟨i, hi⟩ : Fin xs.length) ≤ ⟨j, hj⟩ from hij)

/-- Percentile on two or more samples is the interpolation kernel at
p·(n−1). -/
theorem percentile_eq_interp (xs : List ℚ) (r : ℚ) (h0 : xs.length ≠ 0)
    (h1 : xs.length ≠ 1) :
    percentile xs r = interpVal xs (r * ((xs.length : ℚ) - 1)) := by
  rw [percentile, if_neg h0, if_neg h1]
  rfl

/-- The kernel's value is at least the floor sample. -/
theorem interp_lower (xs : List ℚ) (hs : xs.Sorted (· ≤ ·)) (i : ℚ)
    (h0 : 0 ≤ i) (hub : ⌈i⌉ ≤ (xs.length : ℤ) - 1) :
    xs.getD (⌊i⌋).toNat 0 ≤ interpVal xs i := by
  rw [interpVal]
  split
  · exact le_refl _
  · have hfl : (0 : ℚ) ≤ i - ((⌊i⌋ : ℤ) : ℚ) := sub_nonneg.mpr (Int.floor_le i)
    have hfc : (⌊i⌋ : ℤ) ≤ ⌈i⌉ := Int.floor_le_ceil i
    have hf0 : (0 : ℤ) ≤ ⌊i⌋ := Int.floor_nonneg.mpr h0
    have hcl : (⌈i⌉).toNat < xs.length := by omega
    have hget : xs.getD (⌊i⌋).toNat 0 ≤ xs.getD (⌈i⌉).toNat 0 :=
      sorted_getD_mono xs hs (by omega) hcl
    nlinarith [mul_nonneg (sub_nonneg.mpr hget) hfl]

/-- The kernel's value is at most the ceiling sample. -/
theorem interp_upper (xs : List ℚ) (hs : xs.Sorted (· ≤ ·)) (i : ℚ)
    (h0 : 0 ≤ i) (hub : ⌈i⌉ ≤ (xs.length : ℤ) - 1) :
    interpVal xs i ≤ xs.getD (⌈i⌉).toNat 0 := by
  rw [interpVal]
  split
  · rename_i heq
    rw [heq]
  · have hfc : (⌊i⌋ : ℤ) ≤ ⌈i⌉ := Int.floor_le_ceil i
    have hf0 : (0 : ℤ) ≤ ⌊i⌋ := Int.floor_nonneg.mpr h0
    have hcl : (⌈i⌉).toNat < xs.length := by omega
    have hget : xs.getD (⌊i⌋).toNat 0 ≤ xs.getD (⌈i⌉).toNat 0 :=
      sorted_getD_mono xs hs (by omega) hcl
    have hle1 : i - ((⌊i⌋ : ℤ) : ℚ) ≤ 1 := by
      have hc1 : (⌈i⌉ : ℤ) ≤ ⌊i⌋ + 1 := Int.ceil_le_floor_add_one i
      have hic : i ≤ ((⌈i⌉ : ℤ) : ℚ) := Int.le_ceil i
      have hcast : ((⌈i⌉ : ℤ) : ℚ) ≤ ((⌊i⌋ : ℤ) : ℚ) + 1 := by
        exact_mod_cast hc1
      linarith
    nlinarith [mul_le_mul_of_nonneg_left hle1 (sub_nonneg.mpr hget)]

/-- The interpolation kernel is monotone on [0, n−1] over a sorted
vector. -/
theorem interp_mono (xs : List ℚ) (hs : xs.Sorted (· ≤ ·)) (a b : ℚ)
    (h0 : 0 ≤ a) (hab : a ≤ b) (hub : ⌈b⌉ ≤ (xs.length : ℤ) - 1) :
    interpVal xs a ≤ interpVal xs b := by
  have h0b : 0 ≤ b := le_trans h0 hab
  have huba : (⌈a⌉ : ℤ) ≤ (xs.length : ℤ) - 1 :=
    le_trans (Int.ceil_le_ceil hab) hub
  by_cases hf : (⌊a⌋ : ℤ) = ⌊b⌋
  · by_cases hca : (⌊a⌋ : ℤ) = ⌈a⌉
    · have h1 : interpVal xs a = xs.getD (⌊a⌋).toNat 0 := by
        rw [interpVal, if_pos hca]
      rw [h1, hf]
      exact interp_lower xs hs b h0b hub
    · by_cases hcb : (⌊b⌋ : ℤ) = ⌈b⌉
      · exfalso
        apply hca
        have h2 : ((⌈b⌉ : ℤ) : ℚ) = ((⌊b⌋ : ℤ) : ℚ) := by exact_mod_cast hcb.symm
        have h3 : b ≤ ((⌊b⌋ : ℤ) : ℚ) := by
          have hbc := Int.le_ceil b
          linarith
        have h4 : ((⌊a⌋ : ℤ) : ℚ) = ((⌊b⌋ : ℤ) : ℚ) := by exact_mod_cast hf
        have h5 : a = ((⌊a⌋ : ℤ) : ℚ) := by
          have hfa := Int.floor_le a
          linarith
        have h6 : (⌈a⌉ : ℤ) = ⌊a⌋ :=
          calc (⌈a⌉ : ℤ) = ⌈((⌊a⌋ : ℤ) : ℚ)⌉ := by rw [← h5]
            _ = ⌊a⌋ := Int.ceil_intCast _
        exact h6.symm
      · have hfca := Int.floor_le_ceil a
        have hfcb := Int.floor_le_ceil b
        have ha1 : (⌈a⌉ : ℤ) = ⌊a⌋ + 1 := by
          have := Int.ceil_le_floor_add_one a
          omega
        have hb1 : (⌈b⌉ : ℤ) = ⌊b⌋ + 1 := by
          have := Int.ceil_le_floor_add_one b
          omega
        have hc : (⌈a⌉ : ℤ) = ⌈b⌉ := by omega
        rw [interpVal, if_neg hca, interpVal, if_neg hcb, hf, hc]
        have hf0 : (0 : ℤ) ≤ ⌊b⌋ := Int.floor_nonneg.mpr h0b
        have hcl : (⌈b⌉).toNat < xs.length := by omega
        have hget : xs.getD (⌊b⌋).toNat 0 ≤ xs.getD (⌈b⌉).toNat 0 :=
          sorted_getD_mono xs hs (by omega) hcl
        have hmul := mul_le_mul_of_nonneg_left
          (show a - ((⌊b⌋ : ℤ) : ℚ) ≤ b - ((⌊b⌋ : ℤ) : ℚ) by linarith)
          (sub_nonneg.mpr hget)
        linarith
  · have hflt : (⌊a⌋ : ℤ) < ⌊b⌋ := lt_of_le_of_ne (Int.floor_le_floor hab) hf
    have hf0a : (0 : ℤ) ≤ ⌊a⌋ := Int.floor_nonneg.mpr h0
    have hfcb := Int.floor_le_ceil b
    calc interpVal xs a ≤ xs.getD (⌈a⌉).toNat 0 := interp_upper xs hs a h0 huba
      _ ≤ xs.getD (⌊b⌋).toNat 0 := by
          apply sorted_getD_mono xs hs
          · have := Int.ceil_le_floor_add_one a
            omega
          · omega
      _ ≤ interpVal xs b := interp_lower xs hs b h0b hub

/-- C7: on a sorted vector, percentile is monotone in the quantile:
0 ≤ p ≤ q ≤ 1 implies percentile(xs, p) ≤ percentile(xs, q). -/
theorem percentile_monotone (xs : List ℚ) (hs : xs.Sorted (· ≤ ·))
    (p q : ℚ) (hp : 0 ≤ p) (hpq : p ≤ q) (hq : q ≤ 1) :
    percentile xs p ≤ percentile xs q := by
  by_cases h0 : xs.length = 0
  · rw [percentile, percentile, if_pos h0, if_pos h0]
  · by_cases h1 : xs.length = 1
    · rw [percentile, percentile, if_neg h0, if_pos h1, if_neg h0, if_pos h1]
    · rw [percentile_eq_interp xs p h0 h1, percentile_eq_interp xs q h0 h1]
      have hlen : 2 ≤ xs.length := by omega
      have hN : (1 : ℚ) ≤ (xs.length : ℚ) - 1 := by
        have h2 : (2 : ℚ) ≤ (xs.length : ℚ) := by exact_mod_cast hlen
        linarith
      have hNn : (0 : ℚ) ≤ (xs.length : ℚ) - 1 := by linarith
      apply interp_mono xs hs
      · exact mul_nonneg hp hNn
      · exact mul_le_mul_of_nonneg_right hpq hNn
      · rw [Int.ceil_le]
        push_cast
        linarith [mul_le_mul_of_nonneg_right hq hNn]

/-- C7 witness. -/
theorem percentile_monotone_witness :
    ([1, 2, 3, 4] : List ℚ).Sorted (· ≤ ·) ∧
    percentile [1, 2, 3, 4] (1 / 4) ≤ percentile [1, 2, 3, 4] (1 / 2) :=
  ⟨by norm_num [List.Sorted, List.sorted_cons],
    percentile_monotone [1, 2, 3, 4]
      (by norm_num [List.Sorted, List.sorted_cons]) (1 / 4) (1 / 2)
      (by norm_num) (by norm_num) (by norm_num)⟩

end McpStress
